import Mathlib

/-!
Shallow embedding of the fastalign CIGAR materializer and alignment pipeline
(src/main.rs) and proofs about it.

Modelling conventions:
- Rust byte slices (`&[u8]`, `Vec<u8>`) are modelled as `List Char`; the CIGAR
  alphabet and FASTA bases are ASCII, where Rust byte indexing and char
  indexing coincide.
- `usize` values are modelled as `Nat`; `str::parse::<usize>` is modelled
  faithfully including its overflow failure at `usize::MAX` (64-bit). The
  walk positions come in two forms: `processOps` uses exact arithmetic while
  `processOpsRelease` uses the wrapping usize arithmetic of a release build
  (with the slice panic as an explicit outcome); they agree whenever no
  position addition wraps.
- `anyhow` error chains are modelled as the `String` obtained by joining the
  context messages outermost-first with a colon and a space, exactly the text
  produced by the alternate `{:#}` rendering.
- Fallible Rust functions returning `anyhow::Result<T>` become
  `Except String T`.
-/

namespace Fastalign

deriving instance DecidableEq for Except

/-- The gap character emitted by the materializer. -/
def gapChar : Char := '-'

/-- The CIGAR operation sum type from src/main.rs. -/
inductive CigarOperation where
  | Match (count : Nat)
  | Insertion (count : Nat)
  | Deletion (count : Nat)
  | Skipped (count : Nat)
  | SoftClip (count : Nat)
  | HardClip (count : Nat)
  | Pad (count : Nat)
  | Equal (count : Nat)
  | Diff (count : Nat)
deriving DecidableEq, Repr

/-- Rust usize::MAX on the 64-bit targets the crate builds for. -/
def usizeMax : Nat := 2 ^ 64 - 1

/-- The digit loop of Rust integer parsing: left to right, each character is
first checked to be a digit (invalid-digit error otherwise), then accumulated
with a checked multiply-add (overflow error once the value leaves usize). -/
def parseUsizeLoop : List Char → Nat → Except String Nat
  | [], acc => .ok acc
  | c :: rest, acc =>
    if c.isDigit then
      if acc * 10 + (c.toNat - 48) ≤ usizeMax then
        parseUsizeLoop rest (acc * 10 + (c.toNat - 48))
      else
        .error "number too large to fit in target type"
    else
      .error "invalid digit found in string"

/-- Model of Rust `str::parse::<usize>`: an empty input is an empty-string
error; an optional leading plus sign is stripped (a lone sign is an
invalid-digit error); then the digit loop runs; the error strings are the
Display messages of the corresponding `ParseIntError` kinds. -/
def parseUsize (s : String) : Except String Nat :=
  if s.data.isEmpty then
    .error "cannot parse integer from empty string"
  else
    let digits := match s.data with
      | '+' :: rest => rest
      | l => l
    if digits.isEmpty then
      .error "invalid digit found in string"
    else
      parseUsizeLoop digits 0

/-- The set of operation characters recognised by `CigarOperation::from_str`. -/
def recognizedChar (c : Char) : Bool :=
  c = 'M' || c = 'I' || c = 'D' || c = 'N' || c = 'S' || c = 'H' || c = 'P' ||
    c = '=' || c = 'X'

/-- `CigarOperation::from_str`: split one token into count (all but the last
character) and operation character (the last character). -/
def CigarOperation.fromStr (tok : List Char) : Except String CigarOperation :=
  match parseUsize (String.mk tok.dropLast) with
  | .error e =>
      .error ("Failed to parse CIGAR operation count: " ++ String.mk tok ++ ": " ++ e)
  | .ok count =>
      match tok.getLast? with
      | none =>
          .error ("Failed to parse CIGAR operation character: " ++ String.mk tok)
      | some c =>
          if c = 'M' then .ok (.Match count)
          else if c = 'I' then .ok (.Insertion count)
          else if c = 'D' then .ok (.Deletion count)
          else if c = 'N' then .ok (.Skipped count)
          else if c = 'S' then .ok (.SoftClip count)
          else if c = 'H' then .ok (.HardClip count)
          else if c = 'P' then .ok (.Pad count)
          else if c = '=' then .ok (.Equal count)
          else if c = 'X' then .ok (.Diff count)
          else
            .error ("Unknown CIGAR operation: " ++ String.mk [c] ++
              " in CIGAR string " ++ String.mk tok)

/-- Rust `char::is_alphabetic`, restricted to the ASCII range the CIGAR
alphabet lives in. -/
def isAlphabetic (c : Char) : Bool := c.isAlpha

/-- Rust `str::split_inclusive` on a character predicate: segments end right
after a matching character; a final segment without a match is kept; no empty
segments are produced. -/
def splitInclusive (p : Char → Bool) : List Char → List (List Char)
  | [] => []
  | c :: rest =>
    if p c then
      [c] :: splitInclusive p rest
    else
      match splitInclusive p rest with
      | [] => [[c]]
      | seg :: segs => (c :: seg) :: segs

/-- Parse each token in order, short-circuiting on the first failure, with the
per-token context added by `parse_cigar`. -/
def parseTokens : List (List Char) → Except String (List CigarOperation)
  | [] => .ok []
  | t :: ts =>
    match CigarOperation.fromStr t with
    | .error e =>
        .error ("Failed to parse CIGAR operation: " ++ String.mk t ++ ": " ++ e)
    | .ok op =>
        match parseTokens ts with
        | .error e => .error e
        | .ok ops => .ok (op :: ops)

/-- `parse_cigar` from src/main.rs. -/
def parse_cigar (cigar_string : String) : Except String (List CigarOperation) :=
  parseTokens (splitInclusive isAlphabetic cigar_string.data)

/-- The out-of-bounds error message of `align_sequence`. -/
def oobMsg (seq_pos count len : Nat) : String :=
  "CIGAR operation out-of-bounds sequence: seq_pos=" ++ toString seq_pos ++
    ", count=" ++ toString count ++ ", sequence length=" ++ toString len

/-- The CIGAR walk of `align_sequence`: state is the sequence position, the
reference position and the output accumulated so far; returns the output and
the final reference position. -/
def processOps (sequence : List Char) :
    List CigarOperation → Nat → Nat → List Char → Except String (List Char × Nat)
  | [], _, ref_pos, acc => .ok (acc, ref_pos)
  | op :: rest, seq_pos, ref_pos, acc =>
    match op with
    | .Match count | .Equal count | .Diff count =>
      if sequence.length < seq_pos + count then
        .error (oobMsg seq_pos count sequence.length)
      else
        processOps sequence rest (seq_pos + count) (ref_pos + count)
          (acc ++ (sequence.drop seq_pos).take count)
    | .Insertion count => processOps sequence rest (seq_pos + count) ref_pos acc
    | .Deletion count | .Skipped count =>
        processOps sequence rest seq_pos (ref_pos + count)
          (acc ++ List.replicate count gapChar)
    | .SoftClip count | .HardClip count =>
        processOps sequence rest (seq_pos + count) ref_pos acc
    | .Pad _ => processOps sequence rest seq_pos ref_pos acc

/-- The part of `align_sequence` after CIGAR parsing: leading gaps, the walk,
then trailing gaps when the reference is not fully covered. -/
def alignOps (sequence : List Char) (reference_len : Nat)
    (ops : List CigarOperation) (aln_start : Nat) : Except String (List Char) :=
  match processOps sequence ops 0 aln_start (List.replicate aln_start gapChar) with
  | .error e => .error e
  | .ok (aligned_seq, ref_pos) =>
      .ok (if ref_pos < reference_len then
        aligned_seq ++ List.replicate (reference_len - ref_pos) gapChar
      else aligned_seq)

/-- `align_sequence` from src/main.rs (the materializer). -/
def align_sequence (sequence : List Char) (reference_len : Nat) (cigar : String)
    (aln_start : Nat) : Except String (List Char) :=
  match parse_cigar cigar with
  | .error e => .error e
  | .ok ops => alignOps sequence reference_len ops aln_start

/-- Total reference bases consumed by a CIGAR operation list
(Match/Equal/Diff/Deletion/Skip). -/
def refConsumed : List CigarOperation → Nat
  | [] => 0
  | op :: rest =>
    (match op with
      | .Match c | .Equal c | .Diff c | .Deletion c | .Skipped c => c
      | _ => 0) + refConsumed rest

/-- Whether every Match/Equal/Diff operation of the walk starting at sequence
position `pos` stays within a sequence of length `len`. -/
def opsInBounds (len : Nat) : List CigarOperation → Nat → Bool
  | [], _ => true
  | op :: rest, pos =>
    match op with
    | .Match c | .Equal c | .Diff c =>
        decide (pos + c ≤ len) && opsInBounds len rest (pos + c)
    | .Insertion c | .SoftClip c | .HardClip c => opsInBounds len rest (pos + c)
    | .Deletion _ | .Skipped _ | .Pad _ => opsInBounds len rest pos

end Fastalign

namespace Fastalign

/-- Each successful walk extends the accumulator by exactly the reference
bases consumed, and advances the reference position by the same amount. -/
theorem processOps_ok_length (sequence : List Char) :
    ∀ (ops : List CigarOperation) (pos rpos : Nat) (acc out : List Char) (rfin : Nat),
    processOps sequence ops pos rpos acc = .ok (out, rfin) →
    out.length = acc.length + refConsumed ops ∧ rfin = rpos + refConsumed ops := by
  intro ops
  induction ops with
  | nil =>
    intro pos rpos acc out rfin h
    simp [processOps] at h
    simp [refConsumed, ← h.1, ← h.2]
  | cons op rest ih =>
    intro pos rpos acc out rfin h
    cases op with
    | Match count =>
      simp only [processOps] at h
      split at h
      · exact absurd h (by simp)
      · have := ih _ _ _ _ _ h
        simp only [List.length_append, List.length_take, List.length_drop] at this
        simp only [refConsumed]
        omega
    | Equal count =>
      simp only [processOps] at h
      split at h
      · exact absurd h (by simp)
      · have := ih _ _ _ _ _ h
        simp only [List.length_append, List.length_take, List.length_drop] at this
        simp only [refConsumed]
        omega
    | Diff count =>
      simp only [processOps] at h
      split at h
      · exact absurd h (by simp)
      · have := ih _ _ _ _ _ h
        simp only [List.length_append, List.length_take, List.length_drop] at this
        simp only [refConsumed]
        omega
    | Insertion count =>
      simp only [processOps] at h
      have := ih _ _ _ _ _ h
      simp only [refConsumed]
      omega
    | Deletion count =>
      simp only [processOps] at h
      have := ih _ _ _ _ _ h
      simp only [List.length_append, List.length_replicate] at this
      simp only [refConsumed]
      omega
    | Skipped count =>
      simp only [processOps] at h
      have := ih _ _ _ _ _ h
      simp only [List.length_append, List.length_replicate] at this
      simp only [refConsumed]
      omega
    | SoftClip count =>
      simp only [processOps] at h
      have := ih _ _ _ _ _ h
      simp only [refConsumed]
      omega
    | HardClip count =>
      simp only [processOps] at h
      have := ih _ _ _ _ _ h
      simp only [refConsumed]
      omega
    | Pad count =>
      simp only [processOps] at h
      have := ih _ _ _ _ _ h
      simp only [refConsumed]
      omega

/-- The length of every successful materializer output, before relating it to
the CIGAR string: start offset plus consumed reference, padded up to the
reference length. -/
theorem alignOps_ok_length (sequence : List Char) (reference_len : Nat)
    (ops : List CigarOperation) (aln_start : Nat) (out : List Char)
    (h : alignOps sequence reference_len ops aln_start = .ok out) :
    out.length = max (aln_start + refConsumed ops) reference_len := by
  unfold alignOps at h
  cases hp : processOps sequence ops 0 aln_start (List.replicate aln_start gapChar) with
  | error e => rw [hp] at h; exact absurd h (by simp)
  | ok res =>
    obtain ⟨aligned_seq, ref_pos⟩ := res
    have hlen := processOps_ok_length sequence ops 0 aln_start _ _ _ hp
    simp only [List.length_replicate] at hlen
    rw [hp] at h
    simp only at h
    cases h
    split
    · simp only [List.length_append, List.length_replicate]
      omega
    · omega

end Fastalign

namespace Fastalign

/-- When every Match/Equal/Diff stays within the sequence, the walk succeeds. -/
theorem processOps_ok_of_inBounds (sequence : List Char) :
    ∀ (ops : List CigarOperation) (pos rpos : Nat) (acc : List Char),
    opsInBounds sequence.length ops pos = true →
    ∃ out rfin, processOps sequence ops pos rpos acc = .ok (out, rfin) := by
  intro ops
  induction ops with
  | nil => intro pos rpos acc _h; exact ⟨acc, rpos, rfl⟩
  | cons op rest ih =>
    intro pos rpos acc h
    cases op with
    | Match count =>
      simp only [opsInBounds, Bool.and_eq_true, decide_eq_true_eq] at h
      simp only [processOps]
      rw [if_neg (by omega)]
      exact ih _ _ _ h.2
    | Equal count =>
      simp only [opsInBounds, Bool.and_eq_true, decide_eq_true_eq] at h
      simp only [processOps]
      rw [if_neg (by omega)]
      exact ih _ _ _ h.2
    | Diff count =>
      simp only [opsInBounds, Bool.and_eq_true, decide_eq_true_eq] at h
      simp only [processOps]
      rw [if_neg (by omega)]
      exact ih _ _ _ h.2
    | Insertion count => exact ih _ _ _ (by simpa [opsInBounds] using h)
    | Deletion count => exact ih _ _ _ (by simpa [opsInBounds] using h)
    | Skipped count => exact ih _ _ _ (by simpa [opsInBounds] using h)
    | SoftClip count => exact ih _ _ _ (by simpa [opsInBounds] using h)
    | HardClip count => exact ih _ _ _ (by simpa [opsInBounds] using h)
    | Pad count => exact ih _ _ _ (by simpa [opsInBounds] using h)

/-- When some Match/Equal/Diff overruns the sequence, the walk fails with the
out-of-bounds message of the first overrunning operation. -/
theorem processOps_oob_of_not_inBounds (sequence : List Char) :
    ∀ (ops : List CigarOperation) (pos rpos : Nat) (acc : List Char),
    opsInBounds sequence.length ops pos = false →
    ∃ p c, sequence.length < p + c ∧
      processOps sequence ops pos rpos acc = .error (oobMsg p c sequence.length) := by
  intro ops
  induction ops with
  | nil => intro pos rpos acc h; simp [opsInBounds] at h
  | cons op rest ih =>
    intro pos rpos acc h
    cases op with
    | Match count =>
      by_cases hb : sequence.length < pos + count
      · exact ⟨pos, count, hb, by simp only [processOps]; rw [if_pos hb]⟩
      · rw [opsInBounds.eq_def] at h
        simp only [decide_eq_true (by omega : pos + count ≤ sequence.length),
          Bool.true_and] at h
        obtain ⟨p, c, hpc, hproc⟩ := ih (pos + count) (rpos + count)
          (acc ++ (sequence.drop pos).take count) h
        exact ⟨p, c, hpc, by simp only [processOps]; rw [if_neg hb]; exact hproc⟩
    | Equal count =>
      by_cases hb : sequence.length < pos + count
      · exact ⟨pos, count, hb, by simp only [processOps]; rw [if_pos hb]⟩
      · rw [opsInBounds.eq_def] at h
        simp only [decide_eq_true (by omega : pos + count ≤ sequence.length),
          Bool.true_and] at h
        obtain ⟨p, c, hpc, hproc⟩ := ih (pos + count) (rpos + count)
          (acc ++ (sequence.drop pos).take count) h
        exact ⟨p, c, hpc, by simp only [processOps]; rw [if_neg hb]; exact hproc⟩
    | Diff count =>
      by_cases hb : sequence.length < pos + count
      · exact ⟨pos, count, hb, by simp only [processOps]; rw [if_pos hb]⟩
      · rw [opsInBounds.eq_def] at h
        simp only [decide_eq_true (by omega : pos + count ≤ sequence.length),
          Bool.true_and] at h
        obtain ⟨p, c, hpc, hproc⟩ := ih (pos + count) (rpos + count)
          (acc ++ (sequence.drop pos).take count) h
        exact ⟨p, c, hpc, by simp only [processOps]; rw [if_neg hb]; exact hproc⟩
    | Insertion count =>
      obtain ⟨p, c, hpc, hproc⟩ := ih _ rpos acc (by simpa [opsInBounds] using h)
      exact ⟨p, c, hpc, hproc⟩
    | Deletion count =>
      obtain ⟨p, c, hpc, hproc⟩ :=
        ih pos (rpos + count) (acc ++ List.replicate count gapChar)
          (by simpa [opsInBounds] using h)
      exact ⟨p, c, hpc, hproc⟩
    | Skipped count =>
      obtain ⟨p, c, hpc, hproc⟩ :=
        ih pos (rpos + count) (acc ++ List.replicate count gapChar)
          (by simpa [opsInBounds] using h)
      exact ⟨p, c, hpc, hproc⟩
    | SoftClip count =>
      obtain ⟨p, c, hpc, hproc⟩ := ih _ rpos acc (by simpa [opsInBounds] using h)
      exact ⟨p, c, hpc, hproc⟩
    | HardClip count =>
      obtain ⟨p, c, hpc, hproc⟩ := ih _ rpos acc (by simpa [opsInBounds] using h)
      exact ⟨p, c, hpc, hproc⟩
    | Pad count =>
      obtain ⟨p, c, hpc, hproc⟩ := ih pos rpos acc (by simpa [opsInBounds] using h)
      exact ⟨p, c, hpc, hproc⟩

end Fastalign

namespace Fastalign

/-- C1 counterexample: the call `align_sequence "A" 1 "1M" 1` succeeds, yet
its output has length 2, not the reference length 1 — the postcondition
`output.length == reference_length` fails for this successful call. -/
theorem c1_postcondition_counterexample :
    align_sequence [ 'A' ] 1 "1M" 1 = .ok [ '-', 'A' ] ∧
      ([ '-', 'A' ] : List Char).length ≠ 1 := by
  exact ⟨by decide, by decide⟩

/-- C1 amended: a successful `align_sequence` call returns output of length
exactly `reference_len` provided the start offset plus the reference bases
consumed by the parsed CIGAR does not exceed `reference_len`; otherwise the
output is longer than the reference. -/
theorem c1_length_postcondition (sequence : List Char) (reference_len : Nat)
    (cigar : String) (aln_start : Nat) (ops : List CigarOperation)
    (out : List Char) (hpar : parse_cigar cigar = .ok ops)
    (hok : align_sequence sequence reference_len cigar aln_start = .ok out)
    (hle : aln_start + refConsumed ops ≤ reference_len) :
    out.length = reference_len := by
  unfold align_sequence at hok
  rw [hpar] at hok
  have := alignOps_ok_length sequence reference_len ops aln_start out hok
  omega

/-- Witness for the amended C1 at a concrete input. -/
theorem c1_length_postcondition_witness :
    (([ 'A', 'C', '-' ] : List Char).length = 3) :=
  c1_length_postcondition [ 'A', 'C' ] 3 "2M" 0 [.Match 2] [ 'A', 'C', '-' ]
    (by decide) (by decide) (by decide)

/-- C2: if the CIGAR parses, every Match/Equal/Diff stays within the sequence
bounds, and the start offset plus the consumed reference bases is at most the
reference length, then `align_sequence` succeeds with output of length exactly
`reference_len`. -/
theorem c2_length_invariant (sequence : List Char) (reference_len : Nat)
    (cigar : String) (aln_start : Nat) (ops : List CigarOperation)
    (hpar : parse_cigar cigar = .ok ops)
    (hb : opsInBounds sequence.length ops 0 = true)
    (hle : aln_start + refConsumed ops ≤ reference_len) :
    ∃ out, align_sequence sequence reference_len cigar aln_start = .ok out ∧
      out.length = reference_len := by
  obtain ⟨o, rfin, hproc⟩ := processOps_ok_of_inBounds sequence ops 0 aln_start
    (List.replicate aln_start gapChar) hb
  have halign : align_sequence sequence reference_len cigar aln_start =
      alignOps sequence reference_len ops aln_start := by
    unfold align_sequence; rw [hpar]
  have hout : ∃ out, alignOps sequence reference_len ops aln_start = .ok out := by
    unfold alignOps
    rw [hproc]
    exact ⟨_, rfl⟩
  obtain ⟨out, hout⟩ := hout
  refine ⟨out, by rw [halign]; exact hout, ?_⟩
  have := alignOps_ok_length sequence reference_len ops aln_start out hout
  omega

/-- Witness for C2 at a concrete input. -/
theorem c2_length_invariant_witness :
    ∃ out, align_sequence [ 'A', 'C', 'G' ] 5 "2M1D" 1 = .ok out ∧
      out.length = 5 :=
  c2_length_invariant [ 'A', 'C', 'G' ] 5 "2M1D" 1 [.Match 2, .Deletion 1]
    (by decide) (by decide) (by decide)

/-- C7: the two concrete materializer examples: gap placement with a leading
offset, and deletion handling. -/
theorem c7_gap_placement_and_deletion :
    align_sequence "ACG".data 10 "3M" 2 = .ok "--ACG-----".data ∧
      align_sequence "AAAA".data 5 "2M1D2M" 0 = .ok "AA-AA".data :=
  ⟨by decide, by decide⟩

/-- C9: every successful materializer output has length
`max (aln_start + refConsumed ops) reference_len`, and on the empty CIGAR with
`aln_start ≤ reference_len` the output is exactly `reference_len` gaps. -/
theorem c9_output_length_formula :
    (∀ (sequence : List Char) (reference_len : Nat) (cigar : String)
      (aln_start : Nat) (ops : List CigarOperation) (out : List Char),
      parse_cigar cigar = .ok ops →
      align_sequence sequence reference_len cigar aln_start = .ok out →
      out.length = max (aln_start + refConsumed ops) reference_len) ∧
    (∀ (sequence : List Char) (reference_len aln_start : Nat),
      aln_start ≤ reference_len →
      align_sequence sequence reference_len "" aln_start =
        .ok (List.replicate reference_len gapChar)) := by
  constructor
  · intro sequence reference_len cigar aln_start ops out hpar hok
    unfold align_sequence at hok
    rw [hpar] at hok
    exact alignOps_ok_length sequence reference_len ops aln_start out hok
  · intro sequence reference_len aln_start hle
    have hpar : parse_cigar "" = .ok [] := by decide
    simp only [align_sequence, hpar, alignOps, processOps]
    split
    · rw [← List.replicate_add]
      congr 2
      omega
    · have : aln_start = reference_len := by omega
      rw [this]

/-- Witness for C9 at concrete inputs, including a run whose output exceeds
the reference length. -/
theorem c9_output_length_formula_witness :
    ([ '-', 'A' ] : List Char).length = max (1 + refConsumed [.Match 1]) 1 ∧
      align_sequence [ 'G' ] 4 "" 2 = .ok (List.replicate 4 gapChar) :=
  ⟨c9_output_length_formula.1 [ 'A' ] 1 "1M" 1 [.Match 1] [ '-', 'A' ]
      (by decide) (by decide),
    c9_output_length_formula.2 [ 'G' ] 4 2 (by decide)⟩

end Fastalign

namespace Fastalign

/-- C3 (code slip around Equal): `from_str` does recognise the Equal
operation character, and a CIGAR ending in an Equal operation parses, but an
Equal operation followed by further operations fails to parse, because the
tokenizer splits only after alphabetic characters and the equals sign is not
alphabetic, so the count of the merged token no longer parses. -/
theorem c3_equal_midstring_parse_failure :
    CigarOperation.fromStr "1=".data = .ok (.Equal 1) ∧
      parse_cigar "1=" = .ok [.Equal 1] ∧
      parse_cigar "1=1M" =
        .error "Failed to parse CIGAR operation: 1=1M: Failed to parse CIGAR operation count: 1=1M: invalid digit found in string" :=
  ⟨by decide, by decide, by decide⟩

/-- Data of a literal character list. -/
theorem data_mk (l : List Char) : (String.mk l).data = l := rfl

/-- Whether the first list starts with the second. -/
def leadsWith : List Char → List Char → Bool
  | _, [] => true
  | [], _ :: _ => false
  | a :: as, b :: bs => (a = b) && leadsWith as bs

/-- Whether the second list occurs contiguously inside the first. -/
def containsSeg : List Char → List Char → Bool
  | [], sub => sub.isEmpty
  | a :: t, sub => leadsWith (a :: t) sub || containsSeg t sub

/-- Whether `sub` occurs in `msg` (Rust `str::contains` on the error text). -/
def strContains (msg sub : String) : Bool := containsSeg msg.data sub.data

theorem leadsWith_append (t suf : List Char) : leadsWith (t ++ suf) t = true := by
  induction t with
  | nil => cases suf <;> rfl
  | cons a t ih => simp [leadsWith, ih]

theorem containsSeg_of_append (pre t suf : List Char) :
    containsSeg (pre ++ (t ++ suf)) t = true := by
  induction pre with
  | nil =>
    cases t with
    | nil => cases suf <;> rfl
    | cons a t =>
      have h := leadsWith_append (a :: t) suf
      simp only [List.cons_append] at h
      simp [containsSeg, h]
  | cons p pre ih => simp [containsSeg, ih]

/-- A token whose final character is not one of the nine recognised operation
characters never parses as a CigarOperation. -/
theorem fromStr_error_of_unrecognized (t : List Char) (c : Char)
    (hlast : t.getLast? = some c) (hc : recognizedChar c = false) :
    ∃ e, CigarOperation.fromStr t = .error e := by
  rcases hp : parseUsize (String.mk t.dropLast) with e | count
  · exact ⟨"Failed to parse CIGAR operation count: " ++ String.mk t ++ ": " ++ e,
      by simp [CigarOperation.fromStr, hp]⟩
  · simp only [recognizedChar, Bool.or_eq_false_iff, decide_eq_false_iff_not] at hc
    obtain ⟨⟨⟨⟨⟨⟨⟨⟨h1, h2⟩, h3⟩, h4⟩, h5⟩, h6⟩, h7⟩, h8⟩, h9⟩ := hc
    exact ⟨"Unknown CIGAR operation: " ++ String.mk [c] ++ " in CIGAR string " ++
        String.mk t,
      by simp [CigarOperation.fromStr, hp, hlast, h1, h2, h3, h4, h5, h6,
        h7, h8, h9]⟩

/-- When some token fails to parse, `parseTokens` reports the first failing
token, and the error message contains that token verbatim. -/
theorem parseTokens_error_first (ts : List (List Char))
    (hex : ∃ t ∈ ts, ∃ e, CigarOperation.fromStr t = .error e) :
    ∃ msg t, parseTokens ts = .error msg ∧ t ∈ ts ∧
      (∃ e, CigarOperation.fromStr t = .error e) ∧
      containsSeg msg.data t = true := by
  induction ts with
  | nil =>
    obtain ⟨t, ht, _⟩ := hex
    exact absurd ht (List.not_mem_nil t)
  | cons t ts ih =>
    obtain ⟨t0, ht0, e0, he0⟩ := hex
    cases hf : CigarOperation.fromStr t with
    | error e =>
      have hpt : parseTokens (t :: ts) =
          .error ("Failed to parse CIGAR operation: " ++ String.mk t ++ ": " ++ e) := by
        simp [parseTokens, hf]
      refine ⟨_, t, hpt, List.mem_cons_self _ _, ⟨e, hf⟩, ?_⟩
      simp only [String.data_append, data_mk, List.append_assoc]
      exact containsSeg_of_append _ _ _
    | ok op =>
      have hex' : ∃ t' ∈ ts, ∃ e, CigarOperation.fromStr t' = .error e := by
        rcases List.mem_cons.mp ht0 with h | h
        · subst h; rw [hf] at he0; cases he0
        · exact ⟨t0, h, e0, he0⟩
      obtain ⟨msg, t', hpt, ht', hfe, hcont⟩ := ih hex'
      refine ⟨msg, t', ?_, List.mem_cons_of_mem _ ht', hfe, hcont⟩
      simp [parseTokens, hf, hpt]

/-- A CIGAR parse error propagates unchanged through `align_sequence`. -/
theorem align_sequence_error_of_parse_error (sequence : List Char)
    (reference_len : Nat) (cigar : String) (aln_start : Nat) (msg : String)
    (h : parse_cigar cigar = .error msg) :
    align_sequence sequence reference_len cigar aln_start = .error msg := by
  simp [align_sequence, h]

/-- C6: a CIGAR string containing a token whose operation character is not one
of the nine recognised kinds makes `align_sequence` fail with a parse error
whose message names the offending (first failing) token; it is never silently
skipped. -/
theorem c6_unknown_operation_fails (sequence : List Char) (reference_len : Nat)
    (cigar : String) (aln_start : Nat)
    (h : ∃ t ∈ splitInclusive isAlphabetic cigar.data, ∃ c,
      t.getLast? = some c ∧ recognizedChar c = false) :
    ∃ msg t, align_sequence sequence reference_len cigar aln_start = .error msg ∧
      t ∈ splitInclusive isAlphabetic cigar.data ∧
      (∃ e, CigarOperation.fromStr t = .error e) ∧
      containsSeg msg.data t = true := by
  obtain ⟨t, ht, c, hlast, hc⟩ := h
  obtain ⟨msg, t', hpt, ht', hfe, hcont⟩ := parseTokens_error_first _
    ⟨t, ht, fromStr_error_of_unrecognized t c hlast hc⟩
  exact ⟨msg, t', align_sequence_error_of_parse_error _ _ _ _ _ hpt, ht', hfe,
    hcont⟩

/-- Witness for C6 on the CIGAR string of the spec example. -/
theorem c6_unknown_operation_fails_witness :
    ∃ msg t, align_sequence "ACGT".data 4 "5Z" 0 = .error msg ∧
      t ∈ splitInclusive isAlphabetic ("5Z" : String).data ∧
      (∃ e, CigarOperation.fromStr t = .error e) ∧
      containsSeg msg.data t = true :=
  c6_unknown_operation_fails "ACGT".data 4 "5Z" 0
    ⟨[ '5', 'Z' ], by decide, 'Z', by decide, by decide⟩

end Fastalign

namespace Fastalign

/-- The fields of a minimap2 mapping consumed by `align_record`: the primary
flag, the target start offset and the optional CIGAR string of the hit. -/
structure AlignmentHit where
  is_primary : Bool
  target_start : Nat
  cigar : Option String
deriving DecidableEq

/-- A FASTA record: name and sequence. -/
structure SequenceRecord where
  name : String
  sequence : List Char
deriving DecidableEq

/-- `align_record` from src/main.rs. The external aligner call is modelled by
passing in the hit list `aligner.map(...)` returned; the non-primary case only
logs and is otherwise identical, so it does not appear in the result. -/
def align_record (record : SequenceRecord) (reference_len : Nat)
    (alignment : List AlignmentHit) : Except String SequenceRecord :=
  match alignment with
  | aln :: _ =>
    match aln.cigar with
    | some cigar_string =>
      match align_sequence record.sequence reference_len cigar_string
          aln.target_start with
      | .error e => .error ("Failed to align sequence: " ++ e)
      | .ok aligned_seq => .ok ⟨record.name, aligned_seq⟩
    | none => .error ("No CIGAR string found for alignment " ++ record.name)
  | [] => .error ("No alignment found for sequence " ++ record.name)

/-- C4 counterexample: for the record named read1, both a CIGAR parse failure
and an out-of-bounds failure produce error messages that do not contain the
record name anywhere in the context chain. -/
theorem c4_name_missing_counterexample :
    (align_record ⟨"read1", "ACGT".data⟩ 4 [⟨true, 0, some "5Z"⟩] =
      .error "Failed to align sequence: Failed to parse CIGAR operation: 5Z: Unknown CIGAR operation: Z in CIGAR string 5Z" ∧
      strContains "Failed to align sequence: Failed to parse CIGAR operation: 5Z: Unknown CIGAR operation: Z in CIGAR string 5Z" "read1" = false) ∧
    (align_record ⟨"read1", "ACGT".data⟩ 4 [⟨true, 0, some "5M"⟩] =
      .error "Failed to align sequence: CIGAR operation out-of-bounds sequence: seq_pos=0, count=5, sequence length=4" ∧
      strContains "Failed to align sequence: CIGAR operation out-of-bounds sequence: seq_pos=0, count=5, sequence length=4" "read1" = false) :=
  ⟨⟨by decide, by decide⟩, ⟨by decide, by decide⟩⟩

/-- An occurrence as a suffix makes `strContains` true. -/
theorem strContains_append_right (pre sub : String) :
    strContains (pre ++ sub) sub = true := by
  unfold strContains
  rw [String.data_append]
  have h := containsSeg_of_append pre.data sub.data []
  simpa using h

/-- C4 amended: only the no-alignment and missing-CIGAR per-record failures
carry the offending record's name in their error message; the CIGAR parse and
out-of-bounds failures do not (see the counterexample). -/
theorem c4_name_attribution (record : SequenceRecord) (reference_len : Nat)
    (alignment : List AlignmentHit) :
    (alignment = [] →
      ∃ e, align_record record reference_len alignment = .error e ∧
        strContains e record.name = true) ∧
    (∀ hit rest, alignment = hit :: rest → hit.cigar = none →
      ∃ e, align_record record reference_len alignment = .error e ∧
        strContains e record.name = true) := by
  constructor
  · intro h
    subst h
    exact ⟨"No alignment found for sequence " ++ record.name, rfl,
      strContains_append_right _ _⟩
  · intro hit rest h hc
    subst h
    refine ⟨"No CIGAR string found for alignment " ++ record.name, ?_,
      strContains_append_right _ _⟩
    simp [align_record, hc]

/-- Witness for the amended C4 at a concrete record. -/
theorem c4_name_attribution_witness :
    ∃ e, align_record ⟨"read1", "ACGT".data⟩ 4 [] = .error e ∧
      strContains e "read1" = true :=
  (c4_name_attribution ⟨"read1", "ACGT".data⟩ 4 []).1 rfl

end Fastalign

namespace Fastalign

/-- Remove every Insertion operation from a CIGAR walk starting at sequence
position `pos`, deleting from the sequence the query bases each insertion
would consume at the position the walk has reached. -/
def eraseIns (seq : List Char) :
    List CigarOperation → Nat → List Char × List CigarOperation
  | [], _ => (seq, [])
  | .Insertion c :: rest, pos =>
      eraseIns (seq.take pos ++ seq.drop (pos + c)) rest pos
  | .Match c :: rest, pos =>
      let p := eraseIns seq rest (pos + c); (p.1, .Match c :: p.2)
  | .Equal c :: rest, pos =>
      let p := eraseIns seq rest (pos + c); (p.1, .Equal c :: p.2)
  | .Diff c :: rest, pos =>
      let p := eraseIns seq rest (pos + c); (p.1, .Diff c :: p.2)
  | .SoftClip c :: rest, pos =>
      let p := eraseIns seq rest (pos + c); (p.1, .SoftClip c :: p.2)
  | .HardClip c :: rest, pos =>
      let p := eraseIns seq rest (pos + c); (p.1, .HardClip c :: p.2)
  | .Deletion c :: rest, pos =>
      let p := eraseIns seq rest pos; (p.1, .Deletion c :: p.2)
  | .Skipped c :: rest, pos =>
      let p := eraseIns seq rest pos; (p.1, .Skipped c :: p.2)
  | .Pad c :: rest, pos =>
      let p := eraseIns seq rest pos; (p.1, .Pad c :: p.2)

/-- Deleting the segment `[p, p+k)` from the sequence shifts every later walk
position down by `k` without changing a successful walk's result. -/
theorem processOps_shift (seq : List Char) (p k : Nat) :
    ∀ (ops : List CigarOperation) (q rpos : Nat) (acc : List Char)
      (res : List Char × Nat), p + k ≤ q →
    processOps seq ops q rpos acc = .ok res →
    processOps (seq.take p ++ seq.drop (p + k)) ops (q - k) rpos acc = .ok res := by
  intro ops
  induction ops with
  | nil =>
    intro q rpos acc res _ h
    exact h
  | cons op rest ih =>
    intro q rpos acc res hpk h
    have hlen : (seq.take p ++ seq.drop (p + k)).length =
        min p seq.length + (seq.length - (p + k)) := by
      simp [List.length_append]
    cases op with
    | Match c =>
      simp only [processOps] at h ⊢
      split at h
      · exact absurd h (by simp)
      · rename_i hb
        have hq : q + c ≤ seq.length := by omega
        rw [if_neg (by omega)]
        have hdrop : (seq.take p ++ seq.drop (p + k)).drop (q - k) =
            seq.drop q := by
          rw [List.drop_append_eq_append_drop]
          rw [List.drop_eq_nil_of_le (by simp; omega)]
          rw [List.drop_drop]
          simp only [List.nil_append, List.length_take]
          congr 1
          omega
        rw [hdrop]
        have harith : q - k + c = q + c - k := by omega
        rw [harith]
        exact ih (q + c) (rpos + c) (acc ++ (seq.drop q).take c) res
          (by omega) h
    | Equal c =>
      simp only [processOps] at h ⊢
      split at h
      · exact absurd h (by simp)
      · rename_i hb
        have hq : q + c ≤ seq.length := by omega
        rw [if_neg (by omega)]
        have hdrop : (seq.take p ++ seq.drop (p + k)).drop (q - k) =
            seq.drop q := by
          rw [List.drop_append_eq_append_drop]
          rw [List.drop_eq_nil_of_le (by simp; omega)]
          rw [List.drop_drop]
          simp only [List.nil_append, List.length_take]
          congr 1
          omega
        rw [hdrop]
        have harith : q - k + c = q + c - k := by omega
        rw [harith]
        exact ih (q + c) (rpos + c) (acc ++ (seq.drop q).take c) res
          (by omega) h
    | Diff c =>
      simp only [processOps] at h ⊢
      split at h
      · exact absurd h (by simp)
      · rename_i hb
        have hq : q + c ≤ seq.length := by omega
        rw [if_neg (by omega)]
        have hdrop : (seq.take p ++ seq.drop (p + k)).drop (q - k) =
            seq.drop q := by
          rw [List.drop_append_eq_append_drop]
          rw [List.drop_eq_nil_of_le (by simp; omega)]
          rw [List.drop_drop]
          simp only [List.nil_append, List.length_take]
          congr 1
          omega
        rw [hdrop]
        have harith : q - k + c = q + c - k := by omega
        rw [harith]
        exact ih (q + c) (rpos + c) (acc ++ (seq.drop q).take c) res
          (by omega) h
    | Insertion c =>
      simp only [processOps] at h ⊢
      have harith : q - k + c = q + c - k := by omega
      rw [harith]
      exact ih (q + c) rpos acc res (by omega) h
    | SoftClip c =>
      simp only [processOps] at h ⊢
      have harith : q - k + c = q + c - k := by omega
      rw [harith]
      exact ih (q + c) rpos acc res (by omega) h
    | HardClip c =>
      simp only [processOps] at h ⊢
      have harith : q - k + c = q + c - k := by omega
      rw [harith]
      exact ih (q + c) rpos acc res (by omega) h
    | Deletion c =>
      simp only [processOps] at h ⊢
      exact ih q (rpos + c) (acc ++ List.replicate c gapChar) res hpk h
    | Skipped c =>
      simp only [processOps] at h ⊢
      exact ih q (rpos + c) (acc ++ List.replicate c gapChar) res hpk h
    | Pad c =>
      simp only [processOps] at h ⊢
      exact ih q rpos acc res hpk h

end Fastalign

namespace Fastalign

/-- Erasing insertions only deletes sequence content at or beyond the current
walk position, so any prefix below that position survives unchanged and the
erased sequence stays at least that long. -/
theorem eraseIns_take (ops : List CigarOperation) :
    ∀ (seq : List Char) (pos q : Nat), q ≤ pos →
    (eraseIns seq ops pos).1.take q = seq.take q ∧
      (q ≤ seq.length → q ≤ (eraseIns seq ops pos).1.length) := by
  induction ops with
  | nil =>
    intro seq pos q _
    exact ⟨rfl, fun h => h⟩
  | cons op rest ih =>
    intro seq pos q hq
    cases op with
    | Insertion c =>
      simp only [eraseIns]
      set seq' := seq.take pos ++ seq.drop (pos + c) with hseq'
      have htake : seq'.take q = seq.take q := by
        rw [hseq', List.take_append_eq_append_take, List.take_take]
        by_cases hL : q ≤ seq.length
        · have : q - (seq.take pos).length = 0 := by
            simp [List.length_take]; omega
          rw [this]
          simp [Nat.min_eq_left hq]
        · rw [List.drop_eq_nil_of_le (by omega)]
          simp [Nat.min_eq_left hq]
      have hlen : q ≤ seq.length → q ≤ seq'.length := by
        intro hL
        rw [hseq']
        simp only [List.length_append, List.length_take, List.length_drop]
        omega
      obtain ⟨ht, hl⟩ := ih seq' pos q hq
      exact ⟨ht.trans htake, fun h => hl (hlen h)⟩
    | Match c =>
      simp only [eraseIns]
      exact ih seq (pos + c) q (by omega)
    | Equal c =>
      simp only [eraseIns]
      exact ih seq (pos + c) q (by omega)
    | Diff c =>
      simp only [eraseIns]
      exact ih seq (pos + c) q (by omega)
    | SoftClip c =>
      simp only [eraseIns]
      exact ih seq (pos + c) q (by omega)
    | HardClip c =>
      simp only [eraseIns]
      exact ih seq (pos + c) q (by omega)
    | Deletion c =>
      simp only [eraseIns]
      exact ih seq pos q hq
    | Skipped c =>
      simp only [eraseIns]
      exact ih seq pos q hq
    | Pad c =>
      simp only [eraseIns]
      exact ih seq pos q hq

/-- A successful walk is unchanged by removing its insertions and the inserted
query bases. -/
theorem processOps_eraseIns :
    ∀ (ops : List CigarOperation) (seq : List Char) (pos rpos : Nat)
      (acc : List Char) (res : List Char × Nat),
    processOps seq ops pos rpos acc = .ok res →
    processOps (eraseIns seq ops pos).1 (eraseIns seq ops pos).2 pos rpos acc =
      .ok res := by
  intro ops
  induction ops with
  | nil =>
    intro seq pos rpos acc res h
    exact h
  | cons op rest ih =>
    intro seq pos rpos acc res h
    cases op with
    | Insertion c =>
      simp only [processOps] at h
      simp only [eraseIns]
      have h2 := processOps_shift seq pos c rest (pos + c) rpos acc res
        (le_refl _) h
      rw [Nat.add_sub_cancel] at h2
      exact ih (seq.take pos ++ seq.drop (pos + c)) pos rpos acc res h2
    | Match c =>
      simp only [processOps] at h
      split at h
      · exact absurd h (by simp)
      · rename_i hb
        have hq : pos + c ≤ seq.length := by omega
        obtain ⟨htake, hlen⟩ := eraseIns_take rest seq (pos + c) (pos + c)
          (le_refl _)
        simp only [eraseIns, processOps]
        rw [if_neg (by have := hlen hq; omega)]
        have hslice : ((eraseIns seq rest (pos + c)).1.drop pos).take c =
            (seq.drop pos).take c := by
          rw [List.take_drop, List.take_drop, htake]
        rw [hslice]
        exact ih seq (pos + c) (rpos + c) (acc ++ (seq.drop pos).take c) res h
    | Equal c =>
      simp only [processOps] at h
      split at h
      · exact absurd h (by simp)
      · rename_i hb
        have hq : pos + c ≤ seq.length := by omega
        obtain ⟨htake, hlen⟩ := eraseIns_take rest seq (pos + c) (pos + c)
          (le_refl _)
        simp only [eraseIns, processOps]
        rw [if_neg (by have := hlen hq; omega)]
        have hslice : ((eraseIns seq rest (pos + c)).1.drop pos).take c =
            (seq.drop pos).take c := by
          rw [List.take_drop, List.take_drop, htake]
        rw [hslice]
        exact ih seq (pos + c) (rpos + c) (acc ++ (seq.drop pos).take c) res h
    | Diff c =>
      simp only [processOps] at h
      split at h
      · exact absurd h (by simp)
      · rename_i hb
        have hq : pos + c ≤ seq.length := by omega
        obtain ⟨htake, hlen⟩ := eraseIns_take rest seq (pos + c) (pos + c)
          (le_refl _)
        simp only [eraseIns, processOps]
        rw [if_neg (by have := hlen hq; omega)]
        have hslice : ((eraseIns seq rest (pos + c)).1.drop pos).take c =
            (seq.drop pos).take c := by
          rw [List.take_drop, List.take_drop, htake]
        rw [hslice]
        exact ih seq (pos + c) (rpos + c) (acc ++ (seq.drop pos).take c) res h
    | SoftClip c =>
      simp only [processOps] at h
      simp only [eraseIns, processOps]
      exact ih seq (pos + c) rpos acc res h
    | HardClip c =>
      simp only [processOps] at h
      simp only [eraseIns, processOps]
      exact ih seq (pos + c) rpos acc res h
    | Deletion c =>
      simp only [processOps] at h
      simp only [eraseIns, processOps]
      exact ih seq pos (rpos + c) (acc ++ List.replicate c gapChar) res h
    | Skipped c =>
      simp only [processOps] at h
      simp only [eraseIns, processOps]
      exact ih seq pos (rpos + c) (acc ++ List.replicate c gapChar) res h
    | Pad c =>
      simp only [processOps] at h
      simp only [eraseIns, processOps]
      exact ih seq pos rpos acc res h

end Fastalign

namespace Fastalign

/-- C8: an Insertion of count k advances the query position by k and emits
nothing, and the successful output of the materializer walk is unchanged when
every insertion is removed from the operations and the inserted query bases
are deleted from the sequence. -/
theorem c8_insertion_dropped :
    (∀ (sequence : List Char) (count : Nat) (rest : List CigarOperation)
      (seq_pos ref_pos : Nat) (acc : List Char),
      processOps sequence (.Insertion count :: rest) seq_pos ref_pos acc =
        processOps sequence rest (seq_pos + count) ref_pos acc) ∧
    (∀ (sequence : List Char) (reference_len : Nat) (ops : List CigarOperation)
      (aln_start : Nat) (out : List Char),
      alignOps sequence reference_len ops aln_start = .ok out →
      alignOps (eraseIns sequence ops 0).1 reference_len
        (eraseIns sequence ops 0).2 aln_start = .ok out) := by
  constructor
  · intro sequence count rest seq_pos ref_pos acc
    rfl
  · intro sequence reference_len ops aln_start out h
    unfold alignOps at h ⊢
    cases hp : processOps sequence ops 0 aln_start
        (List.replicate aln_start gapChar) with
    | error e => rw [hp] at h; exact absurd h (by simp)
    | ok res =>
      rw [hp] at h
      rw [processOps_eraseIns ops sequence 0 aln_start
        (List.replicate aln_start gapChar) res hp]
      exact h

/-- Witness for C8 on the spec's insertion example: the sequence AAIICC with
CIGAR 2M2I2M materializes identically to the insertion-free AACC with 2M2M. -/
theorem c8_insertion_dropped_witness :
    alignOps (eraseIns "AAIICC".data [.Match 2, .Insertion 2, .Match 2] 0).1 4
      (eraseIns "AAIICC".data [.Match 2, .Insertion 2, .Match 2] 0).2 0 =
      .ok "AACC".data :=
  c8_insertion_dropped.2 "AAIICC".data 4 [.Match 2, .Insertion 2, .Match 2] 0
    "AACC".data (by decide)

end Fastalign

namespace Fastalign

/-- State of the three-stage pipeline of `process_fasta`: records not yet read,
the Reader-to-Workers channel, records currently held by a worker, the
Workers-to-Writer channel, and the records already written. Per-record errors
are not modelled: the claims below assume runs in which every record aligns
(in the source, worker results are in fact discarded by `thread::scope`). -/
structure PipeState where
  pending : List SequenceRecord
  toAlign : List SequenceRecord
  inflight : List SequenceRecord
  toWrite : List SequenceRecord
  written : List SequenceRecord
deriving DecidableEq

/-- The multiset of record names of a list of records. -/
def recNames (l : List SequenceRecord) : Multiset String :=
  (l.map SequenceRecord.name : List String)

/-- One scheduling step of the pipeline with `T` worker threads: the Reader
sends the next record in file order; an idle worker (fewer than `T` records in
flight) receives from the head of the first channel; a worker finishes any
in-flight record — modelling workers running at different speeds — and sends
the aligned record; the Writer receives from the head of the second channel
and writes. -/
inductive PipeStep (aligner : List Char → List AlignmentHit)
    (reference_len T : Nat) : PipeState → PipeState → Prop where
  | read (r : SequenceRecord)
      (pending toAlign inflight toWrite written : List SequenceRecord) :
      PipeStep aligner reference_len T
        ⟨r :: pending, toAlign, inflight, toWrite, written⟩
        ⟨pending, toAlign ++ [r], inflight, toWrite, written⟩
  | pickup (r : SequenceRecord)
      (pending toAlign inflight toWrite written : List SequenceRecord) :
      inflight.length < T →
      PipeStep aligner reference_len T
        ⟨pending, r :: toAlign, inflight, toWrite, written⟩
        ⟨pending, toAlign, inflight ++ [r], toWrite, written⟩
  | finish (r g : SequenceRecord)
      (pending toAlign inflight1 inflight2 toWrite written :
        List SequenceRecord) :
      align_record r reference_len (aligner r.sequence) = .ok g →
      PipeStep aligner reference_len T
        ⟨pending, toAlign, inflight1 ++ r :: inflight2, toWrite, written⟩
        ⟨pending, toAlign, inflight1 ++ inflight2, toWrite ++ [g], written⟩
  | write (g : SequenceRecord)
      (pending toAlign inflight toWrite written : List SequenceRecord) :
      PipeStep aligner reference_len T
        ⟨pending, toAlign, inflight, g :: toWrite, written⟩
        ⟨pending, toAlign, inflight, toWrite, written ++ [g]⟩

/-- Reachability along pipeline steps. -/
def PipeReach (aligner : List Char → List AlignmentHit)
    (reference_len T : Nat) : PipeState → PipeState → Prop :=
  Relation.ReflTransGen (PipeStep aligner reference_len T)

/-- Initial pipeline state for a list of input records. -/
def pipeInit (records : List SequenceRecord) : PipeState :=
  ⟨records, [], [], [], []⟩

/-- A completed run: both channels drained, no record pending or in flight. -/
def PipeDone (s : PipeState) : Prop :=
  s.pending = [] ∧ s.toAlign = [] ∧ s.inflight = [] ∧ s.toWrite = []

theorem recNames_nil : recNames [] = 0 := rfl

theorem recNames_cons (r : SequenceRecord) (l : List SequenceRecord) :
    recNames (r :: l) = {r.name} + recNames l := by
  simp [recNames, Multiset.cons_coe]

theorem recNames_append (a b : List SequenceRecord) :
    recNames (a ++ b) = recNames a + recNames b := by
  simp [recNames, ← Multiset.coe_add]

/-- A successful `align_record` keeps the record's name. -/
theorem align_record_ok_name (r g : SequenceRecord) (len : Nat)
    (hits : List AlignmentHit) (h : align_record r len hits = .ok g) :
    g.name = r.name := by
  cases hits with
  | nil => simp [align_record] at h
  | cons aln rest =>
    cases hc : aln.cigar with
    | none => simp [align_record, hc] at h
    | some cig =>
      cases ha : align_sequence r.sequence len cig aln.target_start with
      | error e => simp [align_record, hc, ha] at h
      | ok s =>
        simp only [align_record, hc, ha] at h
        injection h with h
        rw [← h]

/-- A successful materializer call factors through a successful parse. -/
theorem align_sequence_ok_parse (sequence : List Char) (reference_len : Nat)
    (cigar : String) (aln_start : Nat) (out : List Char)
    (h : align_sequence sequence reference_len cigar aln_start = .ok out) :
    ∃ ops, parse_cigar cigar = .ok ops ∧
      alignOps sequence reference_len ops aln_start = .ok out := by
  unfold align_sequence at h
  cases hp : parse_cigar cigar with
  | error e => rw [hp] at h; exact absurd h (by simp)
  | ok ops => rw [hp] at h; exact ⟨ops, rfl, h⟩

/-- The hit an aligner returns for a record consumes reference within bounds:
its target start plus consumed reference bases fits in the reference. -/
def HitWithinReference (aligner : List Char → List AlignmentHit)
    (reference_len : Nat) (r : SequenceRecord) : Prop :=
  ∀ hit rest, aligner r.sequence = hit :: rest →
    ∀ cig, hit.cigar = some cig →
      ∀ ops, parse_cigar cig = .ok ops →
        hit.target_start + refConsumed ops ≤ reference_len

/-- A successful `align_record` on a within-bounds hit yields a sequence of
exactly the reference length. -/
theorem align_record_ok_length (aligner : List Char → List AlignmentHit)
    (r g : SequenceRecord) (reference_len : Nat)
    (h : align_record r reference_len (aligner r.sequence) = .ok g)
    (hw : HitWithinReference aligner reference_len r) :
    g.sequence.length = reference_len := by
  cases hh : aligner r.sequence with
  | nil => rw [hh] at h; simp [align_record] at h
  | cons aln rest =>
    rw [hh] at h
    cases hc : aln.cigar with
    | none => simp [align_record, hc] at h
    | some cig =>
      cases ha : align_sequence r.sequence reference_len cig aln.target_start with
      | error e => simp [align_record, hc, ha] at h
      | ok s =>
        simp only [align_record, hc, ha] at h
        injection h with h
        obtain ⟨ops, hp, hops⟩ := align_sequence_ok_parse _ _ _ _ _ ha
        have hmax := alignOps_ok_length _ _ _ _ _ hops
        have hle := hw aln rest hh cig hc ops hp
        rw [← h]
        simp only
        omega

end Fastalign

namespace Fastalign

/-- Run invariant: the record names in the five stages always form the input
name multiset; unprocessed records come from the input; processed records are
successful alignments of input records. -/
def PipeInv (records : List SequenceRecord)
    (aligner : List Char → List AlignmentHit) (reference_len : Nat)
    (s : PipeState) : Prop :=
  recNames s.pending + recNames s.toAlign + recNames s.inflight +
      recNames s.toWrite + recNames s.written = recNames records ∧
  (∀ r ∈ s.pending ++ s.toAlign ++ s.inflight, r ∈ records) ∧
  (∀ g ∈ s.toWrite ++ s.written, ∃ r ∈ records,
    align_record r reference_len (aligner r.sequence) = .ok g)

theorem pipeInv_init (records : List SequenceRecord)
    (aligner : List Char → List AlignmentHit) (reference_len : Nat) :
    PipeInv records aligner reference_len (pipeInit records) := by
  refine ⟨?_, ?_, ?_⟩
  · simp [pipeInit, recNames_nil]
  · intro x hx; simpa [pipeInit] using hx
  · intro g hg; simp [pipeInit] at hg

theorem pipeInv_step (records : List SequenceRecord)
    (aligner : List Char → List AlignmentHit) (reference_len T : Nat)
    (s s' : PipeState) (hstep : PipeStep aligner reference_len T s s')
    (hinv : PipeInv records aligner reference_len s) :
    PipeInv records aligner reference_len s' := by
  obtain ⟨h1, h2, h3⟩ := hinv
  cases hstep with
  | read r pending toAlign inflight toWrite written =>
    refine ⟨?_, ?_, ?_⟩
    · simp only [recNames_cons, recNames_append, recNames_nil, add_zero] at h1 ⊢
      rw [← h1]; abel
    · intro x hx
      apply h2
      simp only [List.mem_append, List.mem_cons] at hx ⊢
      tauto
    · exact h3
  | pickup r pending toAlign inflight toWrite written hT =>
    refine ⟨?_, ?_, ?_⟩
    · simp only [recNames_cons, recNames_append, recNames_nil, add_zero] at h1 ⊢
      rw [← h1]; abel
    · intro x hx
      apply h2
      simp only [List.mem_append, List.mem_cons] at hx ⊢
      tauto
    · exact h3
  | finish r g pending toAlign inflight1 inflight2 toWrite written hok =>
    have hname := align_record_ok_name r g reference_len (aligner r.sequence) hok
    refine ⟨?_, ?_, ?_⟩
    · simp only [recNames_cons, recNames_append, recNames_nil, add_zero] at h1 ⊢
      rw [hname, ← h1]; abel
    · intro x hx
      apply h2
      simp only [List.mem_append, List.mem_cons] at hx ⊢
      tauto
    · intro x hx
      simp only [List.mem_append, List.mem_cons] at hx
      rcases hx with (hx | hx) | hx
      · exact h3 x (List.mem_append_left _ hx)
      · rcases hx with rfl | hx
        · refine ⟨r, h2 r ?_, hok⟩
          simp only [List.mem_append, List.mem_cons]
          tauto
        · exact absurd hx (List.not_mem_nil x)
      · exact h3 x (List.mem_append_right _ hx)
  | write g pending toAlign inflight toWrite written =>
    refine ⟨?_, ?_, ?_⟩
    · simp only [recNames_cons, recNames_append, recNames_nil, add_zero] at h1 ⊢
      rw [← h1]; abel
    · exact h2
    · intro x hx
      apply h3
      simp only [List.mem_append, List.mem_cons] at hx ⊢
      tauto

theorem pipeInv_reach (records : List SequenceRecord)
    (aligner : List Char → List AlignmentHit) (reference_len T : Nat)
    (s : PipeState)
    (h : PipeReach aligner reference_len T (pipeInit records) s) :
    PipeInv records aligner reference_len s := by
  have h' : Relation.ReflTransGen (PipeStep aligner reference_len T)
      (pipeInit records) s := h
  clear h
  induction h' with
  | refl => exact pipeInv_init records aligner reference_len
  | tail hr hstep ih =>
    exact pipeInv_step records aligner reference_len T _ _ hstep ih

/-- With at least one worker and every record aligning successfully, the
pipeline can always run to completion. -/
theorem pipe_progress (aligner : List Char → List AlignmentHit)
    (reference_len T : Nat) (hT : 1 ≤ T) :
    ∀ (records written0 : List SequenceRecord),
    (∀ r ∈ records, ∃ g,
      align_record r reference_len (aligner r.sequence) = .ok g) →
    ∃ written1, PipeReach aligner reference_len T
      ⟨records, [], [], [], written0⟩ ⟨[], [], [], [], written1⟩ := by
  intro records
  induction records with
  | nil => intro w0 _; exact ⟨w0, Relation.ReflTransGen.refl⟩
  | cons r rest ih =>
    intro w0 hok
    obtain ⟨g, hg⟩ := hok r (List.mem_cons_self _ _)
    obtain ⟨w1, hreach⟩ := ih (w0 ++ [g])
      (fun x hx => hok x (List.mem_cons_of_mem _ hx))
    exact ⟨w1, .head (.read r rest [] [] [] w0)
      (.head (.pickup r rest [] [] [] w0 (by simp only [List.length_nil]; omega))
        (.head (.finish r g rest [] [] [] [] w0 hg)
          (.head (.write g rest [] [] [] w0) hreach)))⟩

end Fastalign

namespace Fastalign

/-- C10 counterexample: a one-record, one-worker pipeline run in which every
record aligns successfully, the run completes, exactly one record is written —
but its sequence has length 2, not the reference length 1, because the hit
starts at offset 1 and consumes one reference base past the reference end. -/
theorem c10_length_counterexample :
    PipeReach (fun _ => [⟨true, 1, some "1M"⟩]) 1 1
        (pipeInit [⟨"r1", [ 'A' ]⟩])
        ⟨[], [], [], [], [⟨"r1", [ '-', 'A' ]⟩]⟩ ∧
      PipeDone ⟨[], [], [], [], [⟨"r1", [ '-', 'A' ]⟩]⟩ ∧
      (∀ r ∈ ([⟨"r1", [ 'A' ]⟩] : List SequenceRecord), ∃ g,
        align_record r 1 ((fun _ => [⟨true, 1, some "1M"⟩]) r.sequence) =
          .ok g) ∧
      ¬ (∀ g ∈ (⟨[], [], [], [], [⟨"r1", [ '-', 'A' ]⟩]⟩ : PipeState).written,
        g.sequence.length = 1) := by
  refine ⟨?_, ⟨rfl, rfl, rfl, rfl⟩, ?_, ?_⟩
  · exact .head (.read ⟨"r1", [ 'A' ]⟩ [] [] [] [] [])
      (.head (.pickup ⟨"r1", [ 'A' ]⟩ [] [] [] [] [] (by decide))
        (.head (.finish ⟨"r1", [ 'A' ]⟩ ⟨"r1", [ '-', 'A' ]⟩ [] [] [] [] [] []
            (by decide))
          (.head (.write ⟨"r1", [ '-', 'A' ]⟩ [] [] [] [] []) .refl)))
  · intro r hr
    rcases List.mem_singleton.mp hr with rfl
    exact ⟨⟨"r1", [ '-', 'A' ]⟩, by decide⟩
  · intro hall
    have h := hall ⟨"r1", [ '-', 'A' ]⟩ (by simp)
    simp at h

/-- C10 amended: with `T ≥ 1` workers and every record aligning successfully,
the pipeline can run to completion, and every completed run writes exactly one
output record per input record, with the same name multiset, each output
being the successful alignment of an input record; when additionally every
record's hit consumes reference within bounds, every written sequence has
length exactly the reference length. -/
theorem c10_pipeline_completeness (records : List SequenceRecord)
    (aligner : List Char → List AlignmentHit) (reference_len T : Nat)
    (hT : 1 ≤ T)
    (hok : ∀ r ∈ records, ∃ g,
      align_record r reference_len (aligner r.sequence) = .ok g) :
    (∃ s, PipeReach aligner reference_len T (pipeInit records) s ∧ PipeDone s) ∧
    (∀ s, PipeReach aligner reference_len T (pipeInit records) s → PipeDone s →
      s.written.length = records.length ∧
      recNames s.written = recNames records ∧
      (∀ g ∈ s.written, ∃ r ∈ records,
        align_record r reference_len (aligner r.sequence) = .ok g) ∧
      ((∀ r ∈ records, HitWithinReference aligner reference_len r) →
        ∀ g ∈ s.written, g.sequence.length = reference_len)) := by
  constructor
  · obtain ⟨w1, hreach⟩ := pipe_progress aligner reference_len T hT records []
      hok
    exact ⟨⟨[], [], [], [], w1⟩, hreach, rfl, rfl, rfl, rfl⟩
  · intro s hreach hdone
    obtain ⟨h1, _h2, h3⟩ := pipeInv_reach records aligner reference_len T s
      hreach
    obtain ⟨hp, ha, hi, hw⟩ := hdone
    rw [hp, ha, hi, hw] at h1
    simp only [recNames_nil, zero_add] at h1
    have hmem : ∀ g ∈ s.written, ∃ r ∈ records,
        align_record r reference_len (aligner r.sequence) = .ok g := by
      intro g hg
      exact h3 g (by rw [hw]; simpa using hg)
    refine ⟨?_, h1, hmem, ?_⟩
    · have := congrArg Multiset.card h1
      simpa [recNames, Multiset.coe_card] using this
    · intro hall g hg
      obtain ⟨r, hr, hok'⟩ := hmem g hg
      exact align_record_ok_length aligner r g reference_len hok' (hall r hr)

/-- Witness for the amended C10 on a concrete two-record run. -/
theorem c10_pipeline_completeness_witness :
    ∃ s, PipeReach (fun _ => [⟨true, 0, some "2M"⟩]) 2 1
      (pipeInit [⟨"r1", [ 'A', 'C' ]⟩, ⟨"r2", [ 'G', 'T' ]⟩]) s ∧ PipeDone s :=
  (c10_pipeline_completeness [⟨"r1", [ 'A', 'C' ]⟩, ⟨"r2", [ 'G', 'T' ]⟩]
    (fun _ => [⟨true, 0, some "2M"⟩]) 2 1 (by omega)
    (by
      intro r hr
      rcases List.mem_cons.mp hr with rfl | hr
      · exact ⟨⟨"r1", [ 'A', 'C' ]⟩, by decide⟩
      · rcases List.mem_singleton.mp hr with rfl
        exact ⟨⟨"r2", [ 'G', 'T' ]⟩, by decide⟩)).1

end Fastalign

namespace Fastalign

/-- One past Rust usize::MAX: wrapping addition works modulo this. -/
def usizeSize : Nat := 2 ^ 64

/-- Outcome of running compiled Rust code: a normal value, an `Err` return, or
a process-aborting panic. -/
inductive RunResult (α : Type) where
  | ok (a : α)
  | err (e : String)
  | panicked
deriving DecidableEq

/-- The CIGAR walk as executed by a release build: `seq_pos += count` and
`ref_pos += count` are usize additions that wrap modulo 2^64 (a debug build
panics at the first wrapping addition instead). The bounds check compares the
wrapped end position, so a wrapped position can pass it; if a wrap makes the
slice end fall below its start, the slice indexing panics. `processOps` above
is the idealized walk; the two agree whenever no position wraps. -/
def processOpsRelease (sequence : List Char) :
    List CigarOperation → Nat → Nat → List Char → RunResult (List Char × Nat)
  | [], _, ref_pos, acc => .ok (acc, ref_pos)
  | op :: rest, seq_pos, ref_pos, acc =>
    match op with
    | .Match count | .Equal count | .Diff count =>
      if sequence.length < (seq_pos + count) % usizeSize then
        .err (oobMsg seq_pos count sequence.length)
      else if (seq_pos + count) % usizeSize < seq_pos then
        .panicked
      else
        processOpsRelease sequence rest ((seq_pos + count) % usizeSize)
          ((ref_pos + count) % usizeSize)
          (acc ++ (sequence.drop seq_pos).take
            ((seq_pos + count) % usizeSize - seq_pos))
    | .Insertion count =>
        processOpsRelease sequence rest ((seq_pos + count) % usizeSize) ref_pos
          acc
    | .Deletion count | .Skipped count =>
        processOpsRelease sequence rest seq_pos ((ref_pos + count) % usizeSize)
          (acc ++ List.replicate count gapChar)
    | .SoftClip count | .HardClip count =>
        processOpsRelease sequence rest ((seq_pos + count) % usizeSize) ref_pos
          acc
    | .Pad _ => processOpsRelease sequence rest seq_pos ref_pos acc

/-- `align_sequence` as executed by a release build, on top of the wrapping
walk. -/
def align_sequenceRelease (sequence : List Char) (reference_len : Nat)
    (cigar : String) (aln_start : Nat) : RunResult (List Char) :=
  match parse_cigar cigar with
  | .error e => .err e
  | .ok ops =>
    match processOpsRelease sequence ops 0 aln_start
        (List.replicate aln_start gapChar) with
    | .panicked => .panicked
    | .err e => .err e
    | .ok (aligned_seq, ref_pos) =>
        .ok (if ref_pos < reference_len then
          aligned_seq ++ List.replicate (reference_len - ref_pos) gapChar
        else aligned_seq)

/-- Whether every query-position update of the walk (Match/Equal/Diff,
Insertion, SoftClip, HardClip) stays strictly below 2^64, so the release
build's usize additions never wrap. -/
def queryPosBounded : List CigarOperation → Nat → Bool
  | [], _ => true
  | op :: rest, pos =>
    match op with
    | .Match c | .Equal c | .Diff c | .Insertion c | .SoftClip c
    | .HardClip c =>
        decide (pos + c < usizeSize) && queryPosBounded rest (pos + c)
    | .Deletion _ | .Skipped _ | .Pad _ => queryPosBounded rest pos

/-- When no query-position addition wraps, an error of the idealized walk is
the release build's error too (the reference position may differ, but it never
influences control flow before the error). -/
theorem processOpsRelease_err_agrees (sequence : List Char) :
    ∀ (ops : List CigarOperation) (pos rposA rposB : Nat) (acc : List Char)
      (msg : String),
    queryPosBounded ops pos = true →
    processOps sequence ops pos rposA acc = .error msg →
    processOpsRelease sequence ops pos rposB acc = .err msg := by
  intro ops
  induction ops with
  | nil =>
    intro pos rposA rposB acc msg _ herr
    simp [processOps] at herr
  | cons op rest ih =>
    intro pos rposA rposB acc msg hq herr
    cases op with
    | Match c =>
      simp only [queryPosBounded, Bool.and_eq_true, decide_eq_true_eq] at hq
      have hmod : (pos + c) % usizeSize = pos + c := Nat.mod_eq_of_lt hq.1
      simp only [processOps] at herr
      simp only [processOpsRelease, hmod]
      split at herr
      · rename_i hb
        injection herr with herr
        rw [if_pos hb, herr]
      · rename_i hb
        rw [if_neg hb, if_neg (by omega), Nat.add_sub_cancel_left]
        exact ih (pos + c) (rposA + c) ((rposB + c) % usizeSize)
          (acc ++ (sequence.drop pos).take c) msg hq.2 herr
    | Equal c =>
      simp only [queryPosBounded, Bool.and_eq_true, decide_eq_true_eq] at hq
      have hmod : (pos + c) % usizeSize = pos + c := Nat.mod_eq_of_lt hq.1
      simp only [processOps] at herr
      simp only [processOpsRelease, hmod]
      split at herr
      · rename_i hb
        injection herr with herr
        rw [if_pos hb, herr]
      · rename_i hb
        rw [if_neg hb, if_neg (by omega), Nat.add_sub_cancel_left]
        exact ih (pos + c) (rposA + c) ((rposB + c) % usizeSize)
          (acc ++ (sequence.drop pos).take c) msg hq.2 herr
    | Diff c =>
      simp only [queryPosBounded, Bool.and_eq_true, decide_eq_true_eq] at hq
      have hmod : (pos + c) % usizeSize = pos + c := Nat.mod_eq_of_lt hq.1
      simp only [processOps] at herr
      simp only [processOpsRelease, hmod]
      split at herr
      · rename_i hb
        injection herr with herr
        rw [if_pos hb, herr]
      · rename_i hb
        rw [if_neg hb, if_neg (by omega), Nat.add_sub_cancel_left]
        exact ih (pos + c) (rposA + c) ((rposB + c) % usizeSize)
          (acc ++ (sequence.drop pos).take c) msg hq.2 herr
    | Insertion c =>
      simp only [queryPosBounded, Bool.and_eq_true, decide_eq_true_eq] at hq
      have hmod : (pos + c) % usizeSize = pos + c := Nat.mod_eq_of_lt hq.1
      simp only [processOps] at herr
      simp only [processOpsRelease, hmod]
      exact ih (pos + c) rposA rposB acc msg hq.2 herr
    | SoftClip c =>
      simp only [queryPosBounded, Bool.and_eq_true, decide_eq_true_eq] at hq
      have hmod : (pos + c) % usizeSize = pos + c := Nat.mod_eq_of_lt hq.1
      simp only [processOps] at herr
      simp only [processOpsRelease, hmod]
      exact ih (pos + c) rposA rposB acc msg hq.2 herr
    | HardClip c =>
      simp only [queryPosBounded, Bool.and_eq_true, decide_eq_true_eq] at hq
      have hmod : (pos + c) % usizeSize = pos + c := Nat.mod_eq_of_lt hq.1
      simp only [processOps] at herr
      simp only [processOpsRelease, hmod]
      exact ih (pos + c) rposA rposB acc msg hq.2 herr
    | Deletion c =>
      simp only [queryPosBounded] at hq
      simp only [processOps] at herr
      simp only [processOpsRelease]
      exact ih pos (rposA + c) ((rposB + c) % usizeSize)
        (acc ++ List.replicate c gapChar) msg hq herr
    | Skipped c =>
      simp only [queryPosBounded] at hq
      simp only [processOps] at herr
      simp only [processOpsRelease]
      exact ih pos (rposA + c) ((rposB + c) % usizeSize)
        (acc ++ List.replicate c gapChar) msg hq herr
    | Pad c =>
      simp only [queryPosBounded] at hq
      simp only [processOps] at herr
      simp only [processOpsRelease]
      exact ih pos rposA rposB acc msg hq herr

/-- C5 counterexample: on a 1-base sequence, the parseable CIGAR
18446744073709551615I1I1M has a Match whose (exact) query position 2^64 lies
past the sequence end — `opsInBounds` is false — yet the release build wraps
the position back to 0, passes the bounds check, and silently returns Ok
with the matched base instead of an out-of-bounds error (a debug build
panics at the wrapping addition). -/
theorem c5_overflow_counterexample :
    parse_cigar "18446744073709551615I1I1M" =
      .ok [.Insertion (2 ^ 64 - 1), .Insertion 1, .Match 1] ∧
      opsInBounds ([ 'A' ] : List Char).length
        [.Insertion (2 ^ 64 - 1), .Insertion 1, .Match 1] 0 = false ∧
      align_sequenceRelease [ 'A' ] 1 "18446744073709551615I1I1M" 0 =
        .ok [ 'A' ] :=
  ⟨by decide, by decide, by decide⟩

/-- C5 amended: whenever the CIGAR parses, no query-position addition of the
walk wraps usize, and some Match/Equal/Diff operation would consume past the
end of the query sequence, the release build of the materializer returns the
out-of-bounds error of the first overrunning operation — it neither panics
nor silently truncates or succeeds. Without the no-wrap proviso the guarantee
fails (see the counterexample). -/
theorem c5_out_of_bounds_error_release (sequence : List Char)
    (reference_len : Nat) (cigar : String) (aln_start : Nat)
    (ops : List CigarOperation)
    (hpar : parse_cigar cigar = .ok ops)
    (hq : queryPosBounded ops 0 = true)
    (hob : opsInBounds sequence.length ops 0 = false) :
    ∃ p c, sequence.length < p + c ∧
      align_sequenceRelease sequence reference_len cigar aln_start =
        .err (oobMsg p c sequence.length) := by
  obtain ⟨p, c, hpc, hproc⟩ := processOps_oob_of_not_inBounds sequence ops 0
    aln_start (List.replicate aln_start gapChar) hob
  have hrel := processOpsRelease_err_agrees sequence ops 0 aln_start aln_start
    (List.replicate aln_start gapChar) (oobMsg p c sequence.length) hq hproc
  refine ⟨p, c, hpc, ?_⟩
  simp only [align_sequenceRelease, hpar, hrel]

/-- Witness for the amended C5 at a concrete input. -/
theorem c5_out_of_bounds_error_release_witness :
    ∃ p c, ([ 'A', 'C', 'G', 'T' ] : List Char).length < p + c ∧
      align_sequenceRelease [ 'A', 'C', 'G', 'T' ] 10 "5M" 0 =
        .err (oobMsg p c ([ 'A', 'C', 'G', 'T' ] : List Char).length) :=
  c5_out_of_bounds_error_release [ 'A', 'C', 'G', 'T' ] 10 "5M" 0 [.Match 5]
    (by decide) (by decide) (by decide)

end Fastalign
